import Mathlib

/-!
Verification of the iroh-tickets ticket serialization core.

The repository's `src/examples/custom.rs` defines `CustomIrohTicket`, its
postcard wire format (`TicketWireFormat` with a single `Variant0` revision),
its `Ticket` implementation (`KIND = "zed"`, `to_bytes`, `from_bytes`), the
`Display`/`FromStr` delegations, and the human-readable/binary serde adapter.
The generic library layer (the `Ticket` trait's `serialize`/`deserialize`
defaults, the base32 textual envelope, and the `ParseError` taxonomy) is not
part of the source tree; those definitions are modelled from the spec and
marked as such in their doc comments.

Bytes are modelled as `Fin 256`, byte buffers as `List (Fin 256)`, and the
textual ticket form as `List Char`.
-/

namespace Iroh

/-- A byte of a wire buffer. -/
abbrev Byte := Fin 256

/-- Error taxonomy of ticket parsing. Modelled from the spec: the library's
`ParseError` type is not under `src/`; the spec lists exactly these kinds
(`UnknownKind`, `InvalidEncoding`, `UnsupportedRevision`, `MalformedPayload`,
`TrailingData`). -/
inductive ParseError where
  | unknownKind
  | invalidEncoding
  | unsupportedRevision
  | malformedPayload
  | trailingData
deriving DecidableEq, Repr

/-- LEB128-style varint encoding used by postcard for enum discriminants,
lengths and ports: low seven bits per byte, high bit set on all but the last
byte. -/
def encodeVarint (n : Nat) : List Byte :=
  if h : n < 128 then [⟨n, by omega⟩]
  else ⟨128 + n % 128, by omega⟩ :: encodeVarint (n / 128)
termination_by n
decreasing_by omega

/-- Varint decoder, returning the value and the unconsumed tail. -/
def decodeVarint : List Byte → Option (Nat × List Byte)
  | [] => none
  | b :: l =>
    if b.val < 128 then some (b.val, l)
    else
      match decodeVarint l with
      | none => none
      | some (m, r) => some (b.val - 128 + 128 * m, r)

/-- Fixed-width little-endian byte encoding of a natural number. -/
def natToBytesLE : Nat → Nat → List Byte
  | 0, _ => []
  | k + 1, n => ⟨n % 256, by omega⟩ :: natToBytesLE k (n / 256)

/-- Read a fixed-width little-endian number of `k` bytes off the front of a
buffer. -/
def readFin : (k : Nat) → List Byte → Option (Fin (256 ^ k) × List Byte)
  | 0, l => some (⟨0, by positivity⟩, l)
  | _ + 1, [] => none
  | k + 1, b :: l =>
    match readFin k l with
    | none => none
    | some (m, r) =>
      some (⟨b.val + 256 * m.val, by
        have hb := b.isLt
        have hm := m.isLt
        rw [pow_succ]
        omega⟩, r)

/-- Read `k` raw bytes off the front of a buffer. -/
def readBytes : Nat → List Byte → Option (List Byte × List Byte)
  | 0, l => some ([], l)
  | _ + 1, [] => none
  | k + 1, b :: l =>
    match readBytes k l with
    | none => none
    | some (m, r) => some (b :: m, r)

/-- The peer identity (iroh `EndpointId`): an opaque fixed-size 32-byte
identifier with equality semantics, modelled as its 256-bit value. -/
abbrev EndpointId := Fin (256 ^ 32)

/-- A relay URL (iroh `RelayUrl`), modelled as its UTF-8 byte string. -/
abbrev RelayUrl := List Byte

/-- A socket address: IPv4 or IPv6 address value plus a port, mirroring Rust's
`std::net::SocketAddr` as used by the ticket payload. -/
inductive SocketAddr where
  | v4 : Fin (256 ^ 4) → Fin 65536 → SocketAddr
  | v6 : Fin (256 ^ 16) → Fin 65536 → SocketAddr
deriving DecidableEq, Repr

/-- Order key matching Rust's `Ord` on `SocketAddr`: all V4 addresses sort
before all V6 addresses, then by IP value, then by port. -/
def sortKey : SocketAddr → Nat
  | .v4 ip p => ip.val * 65536 + p.val
  | .v6 ip p => 256 ^ 4 * 65536 + (ip.val * 65536 + p.val)

instance : LinearOrder SocketAddr :=
  LinearOrder.lift' sortKey (by
    intro a b h
    have h4 : (256 : Nat) ^ 4 = 4294967296 := by norm_num
    cases a with
    | v4 ip p =>
      cases b with
      | v4 ip2 p2 =>
        simp only [sortKey] at h
        have hp := p.isLt
        have hp2 := p2.isLt
        simp only [SocketAddr.v4.injEq]
        exact ⟨Fin.ext (by omega), Fin.ext (by omega)⟩
      | v6 ip2 p2 =>
        exfalso
        simp only [sortKey] at h
        have hip := ip.isLt
        have hp := p.isLt
        omega
    | v6 ip p =>
      cases b with
      | v4 ip2 p2 =>
        exfalso
        simp only [sortKey] at h
        have hip := ip2.isLt
        have hp := p2.isLt
        omega
      | v6 ip2 p2 =>
        simp only [sortKey] at h
        have hp := p.isLt
        have hp2 := p2.isLt
        simp only [SocketAddr.v6.injEq]
        exact ⟨Fin.ext (by omega), Fin.ext (by omega)⟩)

/-- The addressing info a ticket carries (iroh `EndpointAddr`): identity,
optional relay hint, and a finite set of direct socket addresses. The Rust
`BTreeSet` is modelled as a `Finset` together with canonical sorted iteration
at encoding time. -/
structure EndpointAddr where
  id : EndpointId
  relay_url : Option RelayUrl
  addrs : Finset SocketAddr
deriving DecidableEq

/-- Revision-0 addressing payload of the wire format (`Variant0AddrInfo` in
`src/examples/custom.rs`). -/
structure Variant0AddrInfo where
  relay_url : Option RelayUrl
  direct_addresses : Finset SocketAddr
deriving DecidableEq

/-- Revision-0 node address of the wire format (`Variant0NodeAddr` in
`src/examples/custom.rs`). -/
structure Variant0NodeAddr where
  endpoint_id : EndpointId
  info : Variant0AddrInfo
deriving DecidableEq

/-- Revision-0 ticket payload of the wire format (`Variant0NodeTicket` in
`src/examples/custom.rs`). -/
structure Variant0NodeTicket where
  addr : Variant0NodeAddr
deriving DecidableEq

/-- Versioned wire envelope (`TicketWireFormat` in `src/examples/custom.rs`):
a tagged union with a single currently supported revision. -/
inductive TicketWireFormat where
  | Variant0 : Variant0NodeTicket → TicketWireFormat
deriving DecidableEq

/-- The custom ticket type of `src/examples/custom.rs`: wraps an
`EndpointAddr`. -/
structure CustomIrohTicket where
  node : EndpointAddr
deriving DecidableEq

/-- Creates a new ticket (`CustomIrohTicket::new`). -/
def CustomIrohTicket.new (node : EndpointAddr) : CustomIrohTicket := ⟨node⟩

/-- Postcard encoding of an optional relay URL: a zero byte for `None`, a one
byte followed by the length-prefixed string for `Some`. -/
def encodeOptUrl : Option RelayUrl → List Byte
  | none => [⟨0, by omega⟩]
  | some u => ⟨1, by omega⟩ :: (encodeVarint u.length ++ u)

/-- Decoder for an optional relay URL. -/
def decodeOptUrl : List Byte → Except ParseError (Option RelayUrl × List Byte)
  | [] => .error .malformedPayload
  | b :: l =>
    if b.val = 0 then .ok (none, l)
    else if b.val = 1 then
      match decodeVarint l with
      | none => .error .malformedPayload
      | some (n, r) =>
        match readBytes n r with
        | none => .error .malformedPayload
        | some (u, r2) => .ok (some u, r2)
    else .error .malformedPayload

/-- Postcard encoding of one socket address: IP-family tag, address bytes,
then the port. -/
def encodeSocketAddr : SocketAddr → List Byte
  | .v4 ip p => encodeVarint 0 ++ (natToBytesLE 4 ip.val ++ encodeVarint p.val)
  | .v6 ip p => encodeVarint 1 ++ (natToBytesLE 16 ip.val ++ encodeVarint p.val)

/-- Decoder for one socket address. An unknown IP-family tag or an
out-of-range port is a malformed payload. -/
def decodeSocketAddr (l : List Byte) : Except ParseError (SocketAddr × List Byte) :=
  match decodeVarint l with
  | none => .error .malformedPayload
  | some (0, r) =>
    match readFin 4 r with
    | none => .error .malformedPayload
    | some (ip, r1) =>
      match decodeVarint r1 with
      | none => .error .malformedPayload
      | some (p, r2) =>
        if h : p < 65536 then .ok (.v4 ip ⟨p, h⟩, r2) else .error .malformedPayload
  | some (1, r) =>
    match readFin 16 r with
    | none => .error .malformedPayload
    | some (ip, r1) =>
      match decodeVarint r1 with
      | none => .error .malformedPayload
      | some (p, r2) =>
        if h : p < 65536 then .ok (.v6 ip ⟨p, h⟩, r2) else .error .malformedPayload
  | some (_, _) => .error .malformedPayload

/-- Canonical iteration order of the address set: the Rust `BTreeSet` yields
its elements in sorted order. -/
def sortedAddrs (s : Finset SocketAddr) : List SocketAddr :=
  s.sort (· ≤ ·)

/-- Concatenated encodings of a list of socket addresses. -/
def encodeAddrList : List SocketAddr → List Byte
  | [] => []
  | a :: l => encodeSocketAddr a ++ encodeAddrList l

/-- Postcard encoding of the address set: element count, then each element in
canonical sorted order. -/
def encodeAddrSet (s : Finset SocketAddr) : List Byte :=
  encodeVarint s.card ++ encodeAddrList (sortedAddrs s)

/-- Decoder for a counted list of socket addresses. -/
def decodeAddrList : Nat → List Byte → Except ParseError (List SocketAddr × List Byte)
  | 0, l => .ok ([], l)
  | n + 1, l =>
    match decodeSocketAddr l with
    | .error e => .error e
    | .ok (a, r) =>
      match decodeAddrList n r with
      | .error e => .error e
      | .ok (as, r2) => .ok (a :: as, r2)

/-- Decoder for the address set: decodes the counted element list and
collapses it back into a set (duplicates collapse, order is forgotten). -/
def decodeAddrSet (l : List Byte) : Except ParseError (Finset SocketAddr × List Byte) :=
  match decodeVarint l with
  | none => .error .malformedPayload
  | some (n, r) =>
    match decodeAddrList n r with
    | .error e => .error e
    | .ok (as, r2) => .ok (as.toFinset, r2)

/-- Postcard encoding of the whole wire envelope (`postcard::to_stdvec` on
`TicketWireFormat`): variant discriminant, then the flattened revision-0
payload fields in declaration order. -/
def encodeWire : TicketWireFormat → List Byte
  | .Variant0 t =>
    encodeVarint 0 ++
      (natToBytesLE 32 t.addr.endpoint_id.val ++
        (encodeOptUrl t.addr.info.relay_url ++ encodeAddrSet t.addr.info.direct_addresses))

/-- Decoder for the wire envelope: reads the leading revision discriminant and
dispatches; a discriminant other than revision 0 fails with
`UnsupportedRevision`. The error mapping is modelled from the spec since the
library's error conversion is not under `src/`. -/
def decodeWire (l : List Byte) : Except ParseError (TicketWireFormat × List Byte) :=
  match decodeVarint l with
  | none => .error .malformedPayload
  | some (n, r) =>
    if n = 0 then
      match readFin 32 r with
      | none => .error .malformedPayload
      | some (eid, r1) =>
        match decodeOptUrl r1 with
        | .error e => .error e
        | .ok (ru, r2) =>
          match decodeAddrSet r2 with
          | .error e => .error e
          | .ok (da, r3) => .ok (.Variant0 ⟨⟨eid, ⟨ru, da⟩⟩⟩, r3)
    else .error .unsupportedRevision

/-- Modelled from the spec: the binary decode entry point used by
`CustomIrohTicket::from_bytes` (the library's postcard wrapper is not under
`src/`). A successful parse with unconsumed trailing bytes fails with
`TrailingData`. -/
def postcardFromBytes (l : List Byte) : Except ParseError TicketWireFormat :=
  match decodeWire l with
  | .error e => .error e
  | .ok (w, rest) => if rest = [] then .ok w else .error .trailingData

/-- Binary encoding of a ticket (`CustomIrohTicket::to_bytes`): wraps the
node's fields into the current `Variant0` revision and postcard-encodes the
envelope. -/
def to_bytes (t : CustomIrohTicket) : List Byte :=
  encodeWire (.Variant0 ⟨⟨t.node.id, ⟨t.node.relay_url, t.node.addrs⟩⟩⟩)

/-- Binary decoding of a ticket (`CustomIrohTicket::from_bytes`): decodes the
wire envelope and rebuilds the `EndpointAddr` from the `Variant0` fields. -/
def from_bytes (l : List Byte) : Except ParseError CustomIrohTicket :=
  match postcardFromBytes l with
  | .error e => .error e
  | .ok (.Variant0 ⟨node⟩) =>
    .ok ⟨⟨node.endpoint_id, node.info.relay_url, node.info.direct_addresses⟩⟩

/-- Value of a little-endian bit string. -/
def valOfBits : List Bool → Nat
  | [] => 0
  | b :: l => b.toNat + 2 * valOfBits l

/-- Little-endian bit string of a number, `w` bits wide. -/
def bitsOfNat : Nat → Nat → List Bool
  | 0, _ => []
  | w + 1, n => (n % 2 == 1) :: bitsOfNat w (n / 2)

/-- Bit string of a byte buffer, each byte contributing eight bits. -/
def bytesToBits : List Byte → List Bool
  | [] => []
  | b :: l => bitsOfNat 8 b.val ++ bytesToBits l

/-- Regroup a bit string into bytes, dropping any trailing group of fewer
than eight bits. -/
def bitsToBytes (l : List Bool) : List Byte :=
  if l.length < 8 then []
  else ⟨valOfBits (l.take 8) % 256, by omega⟩ :: bitsToBytes (l.drop 8)
termination_by l.length
decreasing_by simp [List.length_drop]; omega

/-- Regroup a bit string into five-bit values, the final group zero-padded. -/
def quintets : List Bool → List Nat
  | [] => []
  | [a] => [valOfBits [a]]
  | [a, b] => [valOfBits [a, b]]
  | [a, b, c] => [valOfBits [a, b, c]]
  | [a, b, c, d] => [valOfBits [a, b, c, d]]
  | a :: b :: c :: d :: e :: rest => valOfBits [a, b, c, d, e] :: quintets rest

/-- Bit string of a list of five-bit values. -/
def rebits : List Nat → List Bool
  | [] => []
  | q :: qs => bitsOfNat 5 q ++ rebits qs

/-- Modelled from the spec: the text-safe encoding alphabet, a lowercase
base32 alphabet with no padding characters (the concrete alphabet used by the
library is pinned outside `src/`). -/
def base32Alphabet : List Char :=
  ['a', 'b', 'c', 'd', 'e', 'f', 'g', 'h', 'i', 'j', 'k', 'l', 'm', 'n', 'o', 'p',
   'q', 'r', 's', 't', 'u', 'v', 'w', 'x', 'y', 'z', '2', '3', '4', '5', '6', '7']

/-- Character of a five-bit value. -/
def charOf (q : Nat) : Char :=
  base32Alphabet.getD q 'a'

/-- Index of a character in an alphabet. -/
def alphaIdx : List Char → Char → Option Nat
  | [], _ => none
  | a :: l, c =>
    if c = a then some 0
    else
      match alphaIdx l c with
      | none => none
      | some i => some (i + 1)

/-- Five-bit value of a character, when it belongs to the alphabet. -/
def charVal (c : Char) : Option Nat :=
  alphaIdx base32Alphabet c

/-- Modelled from the spec: unpadded base32 text-safe encoding of a byte
buffer. -/
def base32Encode (bs : List Byte) : List Char :=
  (quintets (bytesToBits bs)).map charOf

/-- Values of a character list, failing on any character outside the
alphabet. -/
def charsToVals : List Char → Option (List Nat)
  | [] => some []
  | c :: cs =>
    match charVal c with
    | none => none
    | some v =>
      match charsToVals cs with
      | none => none
      | some vs => some (v :: vs)

/-- Modelled from the spec: base32 text-safe decoding, the reverse of
`base32Encode`; fails when a character is outside the alphabet. -/
def base32Decode (cs : List Char) : Option (List Byte) :=
  match charsToVals cs with
  | none => none
  | some vs => some (bitsToBytes (rebits vs))

/-- The kind tag of the custom ticket (`CustomIrohTicket::KIND = "zed"`). -/
def KIND : List Char := ['z', 'e', 'd']

/-- Modelled from the spec: the textual envelope, the kind tag followed by the
text-safe encoding of the binary payload. -/
def toText (kind : List Char) (payload : List Byte) : List Char :=
  kind ++ base32Encode payload

/-- Strip an expected kind tag off the front of a ticket string. -/
def stripKind : List Char → List Char → Option (List Char)
  | [], s => some s
  | _ :: _, [] => none
  | k :: ks, c :: cs => if c = k then stripKind ks cs else none

/-- Modelled from the spec: the `Ticket` trait's `serialize` default,
`to_text(KIND, to_bytes(self))`. -/
def serialize (t : CustomIrohTicket) : List Char :=
  toText KIND (to_bytes t)

/-- Modelled from the spec: the `Ticket` trait's `deserialize` default —
verify the tag equals `KIND` else fail `UnknownKind`, text-safe-decode the
body else fail `InvalidEncoding`, then `from_bytes`. -/
def deserialize (s : List Char) : Except ParseError CustomIrohTicket :=
  match stripKind KIND s with
  | none => .error .unknownKind
  | some body =>
    match base32Decode body with
    | none => .error .invalidEncoding
    | some bytes => from_bytes bytes

/-- The `Display` impl of `CustomIrohTicket`: writes `Ticket::serialize(self)`
verbatim. -/
def displayTicket (t : CustomIrohTicket) : List Char :=
  serialize t

/-- The `FromStr` impl of `CustomIrohTicket`: delegates to
`Ticket::deserialize`. -/
def from_str (s : List Char) : Except ParseError CustomIrohTicket :=
  deserialize s

/-- A value produced through the generic serde interchange mechanism: either
the textual string form or the raw structured domain payload. -/
inductive SerdeValue where
  | str : List Char → SerdeValue
  | node : EndpointAddr → SerdeValue
deriving DecidableEq

/-- Error type of the serde-level deserializer: a wrapped `ParseError`
(`serde::de::Error::custom`) or the framework's own shape mismatch. -/
inductive SerdeError where
  | custom : ParseError → SerdeError
  | typeMismatch
deriving DecidableEq

/-- The `Serialize` impl of `CustomIrohTicket`: branches on the serializer's
`is_human_readable` capability flag; human-readable targets get the textual
string (`self.to_string()`), others the raw `node` payload. -/
def serdeSerialize (humanReadable : Bool) (t : CustomIrohTicket) : SerdeValue :=
  if humanReadable then .str (displayTicket t)
  else .node t.node

/-- The `Deserialize` impl of `CustomIrohTicket`: branches on the
deserializer's `is_human_readable` capability flag; human-readable sources
parse a string via `FromStr`, others read the raw `EndpointAddr` and wrap it
with `Self::new`. -/
def serdeDeserialize (humanReadable : Bool) (v : SerdeValue) :
    Except SerdeError CustomIrohTicket :=
  if humanReadable then
    match v with
    | .str s =>
      match from_str s with
      | .ok t => .ok t
      | .error e => .error (.custom e)
    | .node _ => .error .typeMismatch
  else
    match v with
    | .node n => .ok (CustomIrohTicket.new n)
    | .str _ => .error .typeMismatch

/-- A character safe for a single-line ASCII string: an ASCII code point that
is not a line break. -/
def asciiSafe (c : Char) : Bool :=
  decide (c.toNat < 128) && decide (c.toNat ≠ 10) && decide (c.toNat ≠ 13)

/-! ## Round-trip lemmas for the binary wire codec -/

theorem decodeVarint_enc (n : Nat) :
    ∀ rest, decodeVarint (encodeVarint n ++ rest) = some (n, rest) := by
  induction n using Nat.strong_induction_on with
  | _ n ih =>
    intro rest
    rw [encodeVarint]
    split
    · rename_i h
      simp [decodeVarint, h]
    · rename_i h
      have h1 := ih (n / 128) (by omega) rest
      simp only [List.cons_append, decodeVarint, List.append_eq, h1]
      rw [if_neg (by simp)]
      simp only [Option.some.injEq, Prod.mk.injEq]
      exact ⟨by omega, trivial⟩

theorem readFin_enc :
    ∀ (k n : Nat) (rest : List Byte) (h : n < 256 ^ k),
      readFin k (natToBytesLE k n ++ rest) = some (⟨n, h⟩, rest) := by
  intro k
  induction k with
  | zero =>
    intro n rest h
    have hn : n = 0 := by simpa using h
    subst hn
    simp [natToBytesLE, readFin]
  | succ k ih =>
    intro n rest h
    have h1 := ih (n / 256) rest (by rw [pow_succ] at h; omega)
    simp only [natToBytesLE, List.cons_append, readFin, List.append_eq, h1]
    simp only [Option.some.injEq, Prod.mk.injEq, Fin.mk.injEq]
    exact ⟨by omega, trivial⟩

theorem readBytes_enc (u : List Byte) :
    ∀ rest, readBytes u.length (u ++ rest) = some (u, rest) := by
  induction u with
  | nil => intro rest; simp [readBytes]
  | cons b l ih =>
    intro rest
    simp only [List.length_cons, List.cons_append, readBytes, List.append_eq, ih rest]

theorem decodeOptUrl_enc (o : Option RelayUrl) (rest : List Byte) :
    decodeOptUrl (encodeOptUrl o ++ rest) = .ok (o, rest) := by
  cases o with
  | none => simp [encodeOptUrl, decodeOptUrl]
  | some u =>
    have h1 := decodeVarint_enc u.length (u ++ rest)
    have h2 := readBytes_enc u rest
    simp only [encodeOptUrl, List.cons_append, List.append_assoc, decodeOptUrl,
      List.append_eq, h1, h2]
    rw [if_neg (by simp), if_pos (by simp)]

theorem decodeSocketAddr_enc (a : SocketAddr) (rest : List Byte) :
    decodeSocketAddr (encodeSocketAddr a ++ rest) = .ok (a, rest) := by
  cases a with
  | v4 ip p =>
    have h1 := decodeVarint_enc 0 (natToBytesLE 4 ip.val ++ (encodeVarint p.val ++ rest))
    have h2 := readFin_enc 4 ip.val (encodeVarint p.val ++ rest) ip.isLt
    have h3 := decodeVarint_enc p.val rest
    simp only [encodeSocketAddr, List.append_assoc, decodeSocketAddr, List.append_eq,
      h1, h2, h3]
    rw [dif_pos p.isLt]
  | v6 ip p =>
    have h1 := decodeVarint_enc 1 (natToBytesLE 16 ip.val ++ (encodeVarint p.val ++ rest))
    have h2 := readFin_enc 16 ip.val (encodeVarint p.val ++ rest) ip.isLt
    have h3 := decodeVarint_enc p.val rest
    simp only [encodeSocketAddr, List.append_assoc, decodeSocketAddr, List.append_eq,
      h1, h2, h3]
    rw [dif_pos p.isLt]

theorem decodeAddrList_enc (xs : List SocketAddr) :
    ∀ rest, decodeAddrList xs.length (encodeAddrList xs ++ rest) = .ok (xs, rest) := by
  induction xs with
  | nil => intro rest; simp [encodeAddrList, decodeAddrList]
  | cons a l ih =>
    intro rest
    have h1 := decodeSocketAddr_enc a (encodeAddrList l ++ rest)
    simp only [List.length_cons, encodeAddrList, List.append_assoc, decodeAddrList,
      List.append_eq, h1, ih rest]

theorem decodeAddrSet_enc (s : Finset SocketAddr) (rest : List Byte) :
    decodeAddrSet (encodeAddrSet s ++ rest) = .ok (s, rest) := by
  have h1 := decodeVarint_enc s.card (encodeAddrList (sortedAddrs s) ++ rest)
  have hlen : s.card = (sortedAddrs s).length := (Finset.length_sort _).symm
  have h2 := decodeAddrList_enc (sortedAddrs s) rest
  rw [hlen] at h1
  simp only [encodeAddrSet, hlen, List.append_assoc, decodeAddrSet, List.append_eq, h1, h2]
  simp only [Except.ok.injEq, Prod.mk.injEq]
  exact ⟨Finset.sort_toFinset _ s, trivial⟩

theorem decodeWire_enc (w : TicketWireFormat) (rest : List Byte) :
    decodeWire (encodeWire w ++ rest) = .ok (w, rest) := by
  obtain ⟨⟨eid, ⟨ru, da⟩⟩⟩ := w
  have h1 := decodeVarint_enc 0
    (natToBytesLE 32 eid.val ++ (encodeOptUrl ru ++ (encodeAddrSet da ++ rest)))
  have h2 := readFin_enc 32 eid.val (encodeOptUrl ru ++ (encodeAddrSet da ++ rest)) eid.isLt
  have h3 := decodeOptUrl_enc ru (encodeAddrSet da ++ rest)
  have h4 := decodeAddrSet_enc da rest
  simp [encodeWire, List.append_assoc, decodeWire, h1, h2, h3, h4, Fin.eta]

theorem from_bytes_to_bytes (t : CustomIrohTicket) :
    from_bytes (to_bytes t) = .ok t := by
  have h := decodeWire_enc (.Variant0 ⟨⟨t.node.id, ⟨t.node.relay_url, t.node.addrs⟩⟩⟩) []
  rw [List.append_nil] at h
  simp [from_bytes, postcardFromBytes, to_bytes, h]

/-! ## Round-trip lemmas for the base32 textual envelope -/

theorem valOfBits_lt (l : List Bool) : valOfBits l < 2 ^ l.length := by
  induction l with
  | nil => simp [valOfBits]
  | cons b l ih =>
    have hb : b.toNat ≤ 1 := Bool.toNat_le b
    simp only [valOfBits, List.length_cons, pow_succ]
    omega

theorem bitsOfNat_length (w : Nat) : ∀ n, (bitsOfNat w n).length = w := by
  induction w with
  | zero => intro n; simp [bitsOfNat]
  | succ w ih => intro n; simp [bitsOfNat, ih]

theorem bitsOfNat_zero (w : Nat) : bitsOfNat w 0 = List.replicate w false := by
  induction w with
  | zero => simp [bitsOfNat]
  | succ w ih => simp [bitsOfNat, ih, List.replicate_succ]

theorem bitsOfNat_valOfBits (l : List Bool) :
    ∀ w, l.length ≤ w → bitsOfNat w (valOfBits l) = l ++ List.replicate (w - l.length) false := by
  induction l with
  | nil => intro w _; simp [valOfBits, bitsOfNat_zero]
  | cons b t ih =>
    intro w hw
    simp only [List.length_cons] at hw
    cases w with
    | zero => omega
    | succ w =>
      have hmod : ((b.toNat + 2 * valOfBits t) % 2 == 1) = b := by
        cases b <;> simp [Nat.add_mul_mod_self_left]
      have hdiv : (b.toNat + 2 * valOfBits t) / 2 = valOfBits t := by
        cases b <;> simp <;> omega
      have hc : w + 1 - (t.length + 1) = w - t.length := by omega
      simp only [valOfBits, bitsOfNat, List.length_cons, List.cons_append, hc, hmod, hdiv]
      rw [ih w (by omega)]

theorem valOfBits_bitsOfNat : ∀ (w n : Nat), valOfBits (bitsOfNat w n) = n % 2 ^ w := by
  intro w
  induction w with
  | zero => intro n; simp [bitsOfNat, valOfBits, Nat.mod_one]
  | succ w ih =>
    intro n
    have he : 0 < 2 ^ w := pow_pos (by norm_num) w
    simp only [bitsOfNat, valOfBits, ih]
    have hb : ((n % 2 == 1) : Bool).toNat = n % 2 := by
      rcases Nat.mod_two_eq_zero_or_one n with h | h <;> (rw [h]; rfl)
    rw [hb]
    have h1 := Nat.div_add_mod n 2
    have h2 := Nat.div_add_mod (n / 2) (2 ^ w)
    have hr : n % 2 + 2 * (n / 2 % 2 ^ w) < 2 * 2 ^ w := by
      have := Nat.mod_lt (n / 2) he
      have : n % 2 < 2 := Nat.mod_lt n (by norm_num)
      omega
    have hn : n = n % 2 + 2 * (n / 2 % 2 ^ w) + 2 * (2 ^ w * (n / 2 / 2 ^ w)) := by omega
    have hkey : n % (2 ^ w * 2) = n % 2 + 2 * (n / 2 % 2 ^ w) := by
      conv_lhs => rw [hn]
      rw [show 2 * (2 ^ w * (n / 2 / 2 ^ w)) = n / 2 / 2 ^ w * (2 ^ w * 2) by ring]
      rw [Nat.add_mul_mod_self_right]
      exact Nat.mod_eq_of_lt (by omega)
    rw [pow_succ, hkey]

theorem bitsToBytes_small (l : List Bool) (h : l.length < 8) : bitsToBytes l = [] := by
  rw [bitsToBytes, if_pos h]

theorem bitsToBytes_chunk (l rest : List Bool) (h : l.length = 8) :
    bitsToBytes (l ++ rest) = ⟨valOfBits l % 256, by omega⟩ :: bitsToBytes rest := by
  rw [bitsToBytes, if_neg (by simp [List.length_append, h])]
  have ht : (l ++ rest).take 8 = l := by
    rw [show (8 : Nat) = l.length from h.symm]
    exact List.take_left l rest
  have hd : (l ++ rest).drop 8 = rest := by
    rw [show (8 : Nat) = l.length from h.symm]
    exact List.drop_left l rest
  congr 1
  · apply Fin.ext
    show valOfBits ((l ++ rest).take 8) % 256 = valOfBits l % 256
    rw [ht]
  · rw [hd]

theorem bitsToBytes_pad (bs : List Byte) :
    ∀ k, k < 8 → bitsToBytes (bytesToBits bs ++ List.replicate k false) = bs := by
  induction bs with
  | nil =>
    intro k hk
    simp only [bytesToBits, List.nil_append]
    exact bitsToBytes_small _ (by rw [List.length_replicate]; exact hk)
  | cons b t ih =>
    intro k hk
    have hbyte : valOfBits (bitsOfNat 8 b.val) % 256 = b.val := by
      rw [valOfBits_bitsOfNat]
      have hb := b.isLt
      norm_num
    have hhead : (⟨valOfBits (bitsOfNat 8 b.val) % 256, by omega⟩ : Byte) = b :=
      Fin.ext hbyte
    simp only [bytesToBits, List.append_assoc]
    rw [bitsToBytes_chunk (bitsOfNat 8 b.val) _ (bitsOfNat_length _ _), ih k hk, hhead]

theorem valOfBits_lt_32 (l : List Bool) (h : l.length ≤ 5) : valOfBits l < 32 := by
  have h1 := valOfBits_lt l
  have h2 : (2 : Nat) ^ l.length ≤ 2 ^ 5 := Nat.pow_le_pow_right (by norm_num) h
  norm_num at h2
  omega

theorem quintets_lt : ∀ (l : List Bool), ∀ q ∈ quintets l, q < 32 := by
  intro l
  induction l using quintets.induct with
  | case1 => simp [quintets]
  | case2 a => simp [quintets]; exact valOfBits_lt_32 _ (by simp)
  | case3 a b => simp [quintets]; exact valOfBits_lt_32 _ (by simp)
  | case4 a b c => simp [quintets]; exact valOfBits_lt_32 _ (by simp)
  | case5 a b c d => simp [quintets]; exact valOfBits_lt_32 _ (by simp)
  | case6 a b c d e rest ih =>
    intro q hq
    simp only [quintets, List.mem_cons] at hq
    rcases hq with h | h
    · subst h; exact valOfBits_lt_32 _ (by simp)
    · exact ih q h

theorem rebits_quintets :
    ∀ (l : List Bool), ∃ k, k ≤ 4 ∧ rebits (quintets l) = l ++ List.replicate k false := by
  intro l
  induction l using quintets.induct with
  | case1 => exact ⟨0, by omega, by simp [quintets, rebits]⟩
  | case2 a =>
    refine ⟨4, by omega, ?_⟩
    simp only [quintets, rebits, List.append_nil]
    exact bitsOfNat_valOfBits [a] 5 (by simp)
  | case3 a b =>
    refine ⟨3, by omega, ?_⟩
    simp only [quintets, rebits, List.append_nil]
    exact bitsOfNat_valOfBits [a, b] 5 (by simp)
  | case4 a b c =>
    refine ⟨2, by omega, ?_⟩
    simp only [quintets, rebits, List.append_nil]
    exact bitsOfNat_valOfBits [a, b, c] 5 (by simp)
  | case5 a b c d =>
    refine ⟨1, by omega, ?_⟩
    simp only [quintets, rebits, List.append_nil]
    exact bitsOfNat_valOfBits [a, b, c, d] 5 (by simp)
  | case6 a b c d e rest ih =>
    obtain ⟨k, hk, he⟩ := ih
    refine ⟨k, hk, ?_⟩
    simp only [quintets, rebits, he]
    rw [bitsOfNat_valOfBits [a, b, c, d, e] 5 (by simp)]
    simp

theorem charVal_charOf (q : Nat) (h : q < 32) : charVal (charOf q) = some q := by
  have h32 : ∀ i : Fin 32, charVal (charOf i.val) = some i.val := by decide
  exact h32 ⟨q, h⟩

theorem charsToVals_map :
    ∀ (qs : List Nat), (∀ q ∈ qs, q < 32) → charsToVals (qs.map charOf) = some qs := by
  intro qs
  induction qs with
  | nil => intro _; simp [charsToVals]
  | cons q l ih =>
    intro h
    have hq := charVal_charOf q (h q (by simp))
    simp only [List.map_cons, charsToVals, hq, ih fun x hx => h x (by simp [hx])]

theorem base32_roundtrip (bs : List Byte) : base32Decode (base32Encode bs) = some bs := by
  obtain ⟨k, hk, he⟩ := rebits_quintets (bytesToBits bs)
  have hv := quintets_lt (bytesToBits bs)
  simp only [base32Encode, base32Decode, charsToVals_map _ hv]
  rw [he, bitsToBytes_pad bs k (by omega)]

/-! ## Lemmas for the textual envelope -/

theorem stripKind_self : ∀ (k s : List Char), stripKind k (k ++ s) = some s := by
  intro k
  induction k with
  | nil => intro s; simp [stripKind]
  | cons c cs ih => intro s; simp [stripKind, ih]

theorem stripKind_none :
    ∀ (kd k r : List Char), kd.isPrefixOf k = false → k.isPrefixOf kd = false →
      stripKind kd (k ++ r) = none := by
  intro kd
  induction kd with
  | nil => intro k r h1 h2; simp [List.isPrefixOf] at h1
  | cons d ds ih =>
    intro k r h1 h2
    cases k with
    | nil => simp [List.isPrefixOf] at h2
    | cons c cs =>
      simp only [List.cons_append, stripKind]
      by_cases hc : c = d
      · subst hc
        rw [if_pos rfl]
        refine ih cs r ?_ ?_
        · simpa [List.isPrefixOf] using h1
        · simpa [List.isPrefixOf] using h2
      · rw [if_neg hc]

theorem deserialize_serialize (t : CustomIrohTicket) : deserialize (serialize t) = .ok t := by
  simp only [serialize, toText, deserialize, stripKind_self KIND (base32Encode (to_bytes t)),
    base32_roundtrip (to_bytes t), from_bytes_to_bytes t]

theorem isPrefixOf_append : ∀ (k s : List Char), k.isPrefixOf (k ++ s) = true := by
  intro k
  induction k with
  | nil => intro s; simp [List.isPrefixOf]
  | cons c cs ih => intro s; simp [List.isPrefixOf, ih]

theorem asciiSafe_charOf (q : Nat) : asciiSafe (charOf q) = true := by
  by_cases h : q < 32
  · have h32 : ∀ i : Fin 32, asciiSafe (charOf i.val) = true := by decide
    exact h32 ⟨q, h⟩
  · rw [charOf, List.getD_eq_default]
    · decide
    · simp only [base32Alphabet, List.length_cons, List.length_nil]
      omega

/-! ## Claims -/

/-- Claim C1: for every valid `EndpointAddr` value `x` (any identity, any
optional relay hint, any finite set of socket addresses, including the empty
set with no relay hint), deserializing the string produced by serializing the
ticket built from `x` yields a ticket equal to the original: identity, relay
hint, and the address set (a `Finset`, so compared ignoring order) are all
preserved. -/
theorem ticket_roundtrip (x : EndpointAddr) :
    deserialize (serialize (CustomIrohTicket.new x)) = .ok (CustomIrohTicket.new x) :=
  deserialize_serialize (CustomIrohTicket.new x)

/-- Claim C2: for every byte buffer that is a valid binary encoding of a
ticket followed by at least one extra byte, `from_bytes` fails with a
`TrailingData` error; it never succeeds while silently ignoring the
unconsumed trailing bytes. -/
theorem from_bytes_trailing (t : CustomIrohTicket) (extra : List Byte) (h : extra ≠ []) :
    from_bytes (to_bytes t ++ extra) = .error .trailingData := by
  have hw := decodeWire_enc (.Variant0 ⟨⟨t.node.id, ⟨t.node.relay_url, t.node.addrs⟩⟩⟩) extra
  simp only [from_bytes, postcardFromBytes, to_bytes, hw, if_neg h]

/-- Witness for claim C2 at a concrete ticket and one extra zero byte. -/
theorem from_bytes_trailing_witness :
    ([⟨0, by omega⟩] : List Byte) ≠ [] ∧
      from_bytes (to_bytes ⟨⟨⟨0, by positivity⟩, none, ∅⟩⟩ ++ [⟨0, by omega⟩]) =
        .error .trailingData :=
  ⟨by simp, from_bytes_trailing ⟨⟨⟨0, by positivity⟩, none, ∅⟩⟩ [⟨0, by omega⟩] (by simp)⟩

/-- Claim C3: encoding is deterministic. Two tickets with the same logical
value (same identity, same relay hint, same address set — here built from two
lists with the same set of elements) yield the same `to_bytes` buffer and the
same `serialize` string, and the address set is serialized in its canonical
sorted order. -/
theorem to_bytes_deterministic (id : EndpointId) (ru : Option RelayUrl)
    (l₁ l₂ : List SocketAddr) (h : l₁.toFinset = l₂.toFinset) :
    to_bytes (CustomIrohTicket.new ⟨id, ru, l₁.toFinset⟩) =
        to_bytes (CustomIrohTicket.new ⟨id, ru, l₂.toFinset⟩) ∧
      serialize (CustomIrohTicket.new ⟨id, ru, l₁.toFinset⟩) =
        serialize (CustomIrohTicket.new ⟨id, ru, l₂.toFinset⟩) ∧
      List.Sorted (· ≤ ·) (sortedAddrs l₁.toFinset) := by
  refine ⟨by rw [h], by rw [h], ?_⟩
  simp only [sortedAddrs]
  exact Finset.sort_sorted _ _

/-- Witness for claim C3 at two concrete permuted address lists. -/
theorem to_bytes_deterministic_witness :
    ([SocketAddr.v4 ⟨1, by norm_num⟩ ⟨1, by omega⟩,
        SocketAddr.v4 ⟨2, by norm_num⟩ ⟨2, by omega⟩].toFinset =
      [SocketAddr.v4 ⟨2, by norm_num⟩ ⟨2, by omega⟩,
        SocketAddr.v4 ⟨1, by norm_num⟩ ⟨1, by omega⟩].toFinset) ∧
      to_bytes (CustomIrohTicket.new ⟨⟨0, by positivity⟩, none,
          [SocketAddr.v4 ⟨1, by norm_num⟩ ⟨1, by omega⟩,
            SocketAddr.v4 ⟨2, by norm_num⟩ ⟨2, by omega⟩].toFinset⟩) =
        to_bytes (CustomIrohTicket.new ⟨⟨0, by positivity⟩, none,
          [SocketAddr.v4 ⟨2, by norm_num⟩ ⟨2, by omega⟩,
            SocketAddr.v4 ⟨1, by norm_num⟩ ⟨1, by omega⟩].toFinset⟩) :=
  ⟨by decide, (to_bytes_deterministic ⟨0, by positivity⟩ none _ _ (by decide)).1⟩

/-- Claim C4: a well-formed ticket string whose kind tag differs from the
expected `KIND` (the tags being distinct in the unambiguous sense the spec
requires: neither is a prefix of the other) always fails to deserialize with
`UnknownKind`, for every payload, and never returns a ticket. -/
theorem deserialize_wrong_kind (k : List Char) (payload : List Byte)
    (h1 : KIND.isPrefixOf k = false) (h2 : k.isPrefixOf KIND = false) :
    deserialize (k ++ base32Encode payload) = .error .unknownKind := by
  simp only [deserialize, stripKind_none KIND k (base32Encode payload) h1 h2]

/-- Witness for claim C4 at kind tag `a` against expected kind `zed`. -/
theorem deserialize_wrong_kind_witness :
    (KIND.isPrefixOf ['a'] = false) ∧ (['a'].isPrefixOf KIND = false) ∧
      deserialize (['a'] ++ base32Encode []) = .error .unknownKind :=
  ⟨by decide, by decide, deserialize_wrong_kind ['a'] [] (by decide) (by decide)⟩

/-- Claim C5: a binary buffer whose leading revision discriminant is not a
revision the decoder implements (any discriminant other than `Variant0`'s 0)
makes `from_bytes` fail with `UnsupportedRevision` regardless of the
remaining bytes. -/
theorem from_bytes_unsupported_revision (n : Nat) (rest : List Byte) (h : n ≠ 0) :
    from_bytes (encodeVarint n ++ rest) = .error .unsupportedRevision := by
  have hd := decodeVarint_enc n rest
  simp only [from_bytes, postcardFromBytes, decodeWire, hd, if_neg h]

/-- Witness for claim C5 at discriminant 1 with an empty remainder. -/
theorem from_bytes_unsupported_revision_witness :
    (1 : Nat) ≠ 0 ∧ from_bytes (encodeVarint 1 ++ []) = .error .unsupportedRevision :=
  ⟨by decide, from_bytes_unsupported_revision 1 [] (by decide)⟩

/-- Claim C6: the serde adapter branches solely on the `is_human_readable`
capability flag: with the flag set it emits exactly the textual ticket string,
with the flag clear it emits the raw structured `node` payload, and
deserialization round-trips symmetrically in each mode. -/
theorem serde_adapter_modes (t : CustomIrohTicket) :
    serdeSerialize true t = .str (serialize t) ∧
      serdeSerialize false t = .node t.node ∧
      serdeDeserialize true (serdeSerialize true t) = .ok t ∧
      serdeDeserialize false (serdeSerialize false t) = .ok t := by
  refine ⟨rfl, rfl, ?_, rfl⟩
  simp only [serdeSerialize, serdeDeserialize, if_true, from_str, displayTicket,
    deserialize_serialize t]

/-- Claim C7: `serialize` equals `to_text(KIND, to_bytes(self))`: a string
that starts with the `KIND` literal `zed` followed by the text-safe encoding
of the binary payload, and consists only of single-line ASCII characters. -/
theorem serialize_text_form (t : CustomIrohTicket) :
    serialize t = toText KIND (to_bytes t) ∧
      KIND.isPrefixOf (serialize t) = true ∧
      (serialize t).all asciiSafe = true := by
  refine ⟨rfl, isPrefixOf_append KIND (base32Encode (to_bytes t)), ?_⟩
  simp only [serialize, toText, List.all_append, Bool.and_eq_true]
  constructor
  · decide
  · simp only [base32Encode, List.all_eq_true]
    intro c hc
    simp only [List.mem_map] at hc
    obtain ⟨q, _, rfl⟩ := hc
    exact asciiSafe_charOf q

/-- Claim C8: the textual display and string-parse operations are pure
delegates: `Display` output equals `Ticket::serialize` and `FromStr` returns
exactly the result of `Ticket::deserialize`, for every ticket and string. -/
theorem display_fromstr_delegate (t : CustomIrohTicket) (s : List Char) :
    displayTicket t = serialize t ∧ from_str s = deserialize s :=
  ⟨rfl, rfl⟩

/-- Claim C9: for every input byte buffer and every input string, `from_bytes`
and `deserialize` always return either a successfully parsed ticket or a typed
`ParseError` — the embedding is total, mirroring that every failure path in
the source returns an error rather than panicking or substituting defaults. -/
theorem decode_total (bs : List Byte) (s : List Char) :
    ((∃ t, from_bytes bs = .ok t) ∨ (∃ e, from_bytes bs = .error e)) ∧
      ((∃ t, deserialize s = .ok t) ∨ (∃ e, deserialize s = .error e)) := by
  constructor
  · cases h : from_bytes bs with
    | ok t => exact .inl ⟨t, rfl⟩
    | error e => exact .inr ⟨e, rfl⟩
  · cases h : deserialize s with
    | ok t => exact .inl ⟨t, rfl⟩
    | error e => exact .inr ⟨e, rfl⟩

/-- Claim C10: every buffer produced by `to_bytes` begins with the
discriminant byte `0x00`, the `Variant0` arm of the wire-format enum. -/
theorem to_bytes_leading_discriminant (t : CustomIrohTicket) :
    (to_bytes t).head? = some ⟨0, by omega⟩ := by
  have h0 : encodeVarint 0 = [⟨0, by omega⟩] := by
    rw [encodeVarint, dif_pos (by norm_num : (0 : Nat) < 128)]
  simp [to_bytes, encodeWire, h0]

end Iroh
